import Mathlib

/-!
Verification of the target-game word validator (`src/target_game.py`).

Shallow embedding conventions:
- A word and the flattened grid are `List Char`.
- The dictionary file after `read().splitlines()` is a `List (List Char)`
  of lines; `get_words` drops the three header lines (`[3:]`) itself.
- `_get_letter_amounts` builds its list of `[letter, count]` pairs by a
  linear scan; `addLetter` is the body of its outer `for` loop.  Python's
  membership test `letter in letter_amounts[i]` on the pair
  `[char, count]` can only match the char component (a `str` never equals
  an `int`), so it is embedded as `p.1 == letter`.  The inner `while`
  keeps scanning after a match, incrementing every matching entry, which
  the `List.map` reproduces.
- The accumulating loops `valid_words.append(word)` /
  `pure_user_words.append(word)` are embedded as `foldl` with
  `acc ++ [word]`.
-/

namespace TargetGame

/-- Body of the outer loop of `_get_letter_amounts`: increment the count of
`letter` in every matching entry, or append a fresh `(letter, 1)` entry. -/
def addLetter (letter_amounts : List (Char × Nat)) (letter : Char) :
    List (Char × Nat) :=
  if letter_amounts.any (fun p => p.1 == letter) then
    letter_amounts.map (fun p => if p.1 == letter then (p.1, p.2 + 1) else p)
  else
    letter_amounts ++ [(letter, 1)]

/-- `_get_letter_amounts(letters)`: the amount of each letter in `letters`. -/
def get_letter_amounts (letters : List Char) : List (Char × Nat) :=
  letters.foldl addLetter []

/-- `_find_amount_by_letter(letter, letter_list)`: linear search returning the
stored count, or `0` when no entry matches. -/
def find_amount_by_letter (letter : Char) : List (Char × Nat) → Nat
  | [] => 0
  | p :: rest => if p.1 == letter then p.2 else find_amount_by_letter letter rest

/-- `letters[4]`, the middle letter of the flattened grid (total via a
default; the grid always has 9 letters). -/
def middle_letter (letters : List Char) : Char :=
  letters.getD 4 ' '

/-- The per-word condition of the loop of `get_words` (lines 52-60):
`len(word) >= 4 and set(word).issubset(keys)` guarding
`all(word.count(i) <= _find_amount_by_letter(i, ...) for i in word)
and middle_letter in word`. -/
def valid_in_get_words (word : List Char) (letter_amounts : List (Char × Nat))
    (middle : Char) : Bool :=
  (decide (4 ≤ word.length) &&
    word.all (fun c => (letter_amounts.map Prod.fst).contains c)) &&
  (word.all (fun c =>
      decide (word.count c ≤ find_amount_by_letter c letter_amounts)) &&
    word.contains middle)

/-- The accumulating loop of `get_words`: append each word passing the
validation condition to `valid_words`. -/
def dictionary_filter (words : List (List Char))
    (letter_amounts : List (Char × Nat)) (middle : Char) : List (List Char) :=
  words.foldl
    (fun valid_words word =>
      if valid_in_get_words word letter_amounts middle then
        valid_words ++ [word]
      else valid_words)
    []

/-- `get_words(file, letters)` with the file contents already split into
lines: drop the 3 header lines, then run the validation loop. -/
def get_words (lines : List (List Char)) (letters : List Char) :
    List (List Char) :=
  dictionary_filter (lines.drop 3) (get_letter_amounts letters)
    (middle_letter letters)

/-- The per-word condition of the loop of `get_pure_user_words`
(lines 160-167), without the final `word not in words_from_dict` clause. -/
def valid_in_get_pure (word : List Char) (letter_amounts : List (Char × Nat))
    (middle : Char) : Bool :=
  decide (4 ≤ word.length) &&
  word.all (fun c => (letter_amounts.map Prod.fst).contains c) &&
  word.all (fun c =>
    decide (word.count c ≤ find_amount_by_letter c letter_amounts)) &&
  word.contains middle

/-- `get_pure_user_words(user_words, letters, words_from_dict)`: keep the
user words that pass the validation condition and are not dictionary words. -/
def get_pure_user_words (user_words : List (List Char)) (letters : List Char)
    (words_from_dict : List (List Char)) : List (List Char) :=
  user_words.foldl
    (fun pure_user_words word =>
      if valid_in_get_pure word (get_letter_amounts letters)
            (middle_letter letters) &&
          !(words_from_dict.contains word) then
        pure_user_words ++ [word]
      else pure_user_words)
    []

/-- The grid of the worked example in the documentation: `testmings`,
middle letter `m`. -/
def tgrid : List Char := ['t', 'e', 's', 't', 'm', 'i', 'n', 'g', 's']

def wstem : List Char := ['s', 't', 'e', 'm']

def wming : List Char := ['m', 'i', 'n', 'g']

def wmists : List Char := ['m', 'i', 's', 't', 's']

/-! ### Helper lemmas -/

theorem foldl_if_append {α : Type} (p : α → Bool) (l acc : List α) :
    l.foldl (fun r x => if p x then r ++ [x] else r) acc = acc ++ l.filter p := by
  induction l generalizing acc with
  | nil => simp
  | cons x xs ih =>
    by_cases h : p x <;> simp [List.filter_cons, h, ih]

theorem inc_map_eq_self (l : List (Char × Nat)) (c : Char)
    (h : c ∉ l.map Prod.fst) :
    l.map (fun p => if p.1 == c then (p.1, p.2 + 1) else p) = l := by
  induction l with
  | nil => rfl
  | cons p rest ih =>
    have h1 : p.1 ≠ c := fun hc => h (by simp [hc])
    have h2 : c ∉ rest.map Prod.fst := fun hm => h (by simp [hm])
    rw [List.map_cons, ih h2, if_neg (by simpa using h1)]

theorem keys_inc_map (l : List (Char × Nat)) (c : Char) :
    (l.map (fun p => if p.1 == c then (p.1, p.2 + 1) else p)).map Prod.fst =
      l.map Prod.fst := by
  induction l with
  | nil => rfl
  | cons p rest ih =>
    simp only [List.map_cons, ih]
    by_cases h : (p.1 == c) = true
    · rw [if_pos h]
    · rw [if_neg h]

theorem addLetter_mem_keys (l : List (Char × Nat)) (c x : Char) :
    x ∈ (addLetter l c).map Prod.fst ↔ x ∈ l.map Prod.fst ∨ x = c := by
  unfold addLetter
  by_cases h : l.any (fun p => p.1 == c) = true
  · have hc : c ∈ l.map Prod.fst := by
      obtain ⟨p, hp, hpc⟩ := List.any_eq_true.mp h
      exact List.mem_map.mpr ⟨p, hp, beq_iff_eq.mp hpc⟩
    simp only [h, if_true, keys_inc_map]
    constructor
    · exact Or.inl
    · rintro (hx | rfl)
      · exact hx
      · exact hc
  · simp [h]

theorem addLetter_keys_nodup (l : List (Char × Nat)) (c : Char)
    (h : (l.map Prod.fst).Nodup) : ((addLetter l c).map Prod.fst).Nodup := by
  unfold addLetter
  by_cases ha : l.any (fun p => p.1 == c) = true
  · rw [if_pos ha, keys_inc_map]
    exact h
  · have hc : c ∉ l.map Prod.fst := by
      intro hm
      obtain ⟨p, hp, rfl⟩ := List.mem_map.mp hm
      exact ha (List.any_eq_true.mpr ⟨p, hp, beq_self_eq_true _⟩)
    rw [if_neg ha, List.map_append]
    simp [List.nodup_append, h, hc]

theorem sum_inc_map (l : List (Char × Nat)) (c : Char)
    (hnd : (l.map Prod.fst).Nodup)
    (h : l.any (fun p => p.1 == c) = true) :
    ((l.map (fun p => if p.1 == c then (p.1, p.2 + 1) else p)).map
        Prod.snd).sum = (l.map Prod.snd).sum + 1 := by
  induction l with
  | nil => simp at h
  | cons p rest ih =>
    rw [List.map_cons] at hnd
    obtain ⟨hnotin, hndrest⟩ := List.nodup_cons.mp hnd
    by_cases hp : (p.1 == c) = true
    · have hcrest : c ∉ rest.map Prod.fst := by
        rw [← beq_iff_eq.mp hp]
        exact hnotin
      simp only [List.map_cons, if_pos hp, inc_map_eq_self rest c hcrest,
        List.sum_cons]
      omega
    · have hrest : rest.any (fun p => p.1 == c) = true := by
        rcases List.any_eq_true.mp h with ⟨q, hq, hqc⟩
        rcases List.mem_cons.mp hq with rfl | hq'
        · exact absurd hqc hp
        · exact List.any_eq_true.mpr ⟨q, hq', hqc⟩
      simp only [List.map_cons, if_neg hp, List.sum_cons, ih hndrest hrest]
      omega

theorem addLetter_sum (l : List (Char × Nat)) (c : Char)
    (hnd : (l.map Prod.fst).Nodup) :
    ((addLetter l c).map Prod.snd).sum = (l.map Prod.snd).sum + 1 := by
  unfold addLetter
  by_cases h : l.any (fun p => p.1 == c) = true
  · simpa [h] using sum_inc_map l c hnd h
  · simp [h]

theorem addLetter_pos (l : List (Char × Nat)) (c : Char)
    (h : ∀ p ∈ l, 1 ≤ p.2) : ∀ p ∈ addLetter l c, 1 ≤ p.2 := by
  unfold addLetter
  by_cases ha : l.any (fun p => p.1 == c) = true
  · simp only [ha, if_true]
    intro p hp
    obtain ⟨q, hq, hqe⟩ := List.mem_map.mp hp
    by_cases hqc : (q.1 == c) = true
    · rw [if_pos hqc] at hqe
      subst hqe
      exact Nat.le_add_left 1 q.2
    · rw [if_neg hqc] at hqe
      subst hqe
      exact h q hq
  · simp only [ha, if_false]
    intro p hp
    rcases List.mem_append.mp hp with hl | hr
    · exact h p hl
    · rcases List.mem_singleton.mp hr with rfl
      exact le_refl 1

theorem foldl_addLetter_mem_keys (ls : List Char) (acc : List (Char × Nat))
    (x : Char) :
    x ∈ (ls.foldl addLetter acc).map Prod.fst ↔
      x ∈ acc.map Prod.fst ∨ x ∈ ls := by
  induction ls generalizing acc with
  | nil => simp
  | cons c cs ih =>
    rw [List.foldl_cons, ih, addLetter_mem_keys]
    simp only [List.mem_cons]
    tauto

theorem foldl_addLetter_nodup (ls : List Char) (acc : List (Char × Nat))
    (h : (acc.map Prod.fst).Nodup) :
    ((ls.foldl addLetter acc).map Prod.fst).Nodup := by
  induction ls generalizing acc with
  | nil => simpa
  | cons c cs ih => exact ih _ (addLetter_keys_nodup acc c h)

theorem foldl_addLetter_sum (ls : List Char) (acc : List (Char × Nat))
    (h : (acc.map Prod.fst).Nodup) :
    ((ls.foldl addLetter acc).map Prod.snd).sum =
      (acc.map Prod.snd).sum + ls.length := by
  induction ls generalizing acc with
  | nil => simp
  | cons c cs ih =>
    rw [List.foldl_cons, ih _ (addLetter_keys_nodup acc c h),
      addLetter_sum acc c h, List.length_cons]
    omega

theorem foldl_addLetter_pos (ls : List Char) (acc : List (Char × Nat))
    (h : ∀ p ∈ acc, 1 ≤ p.2) : ∀ p ∈ ls.foldl addLetter acc, 1 ≤ p.2 := by
  induction ls generalizing acc with
  | nil => exact h
  | cons c cs ih => exact ih _ (addLetter_pos acc c h)

theorem get_letter_amounts_mem_keys (letters : List Char) (x : Char) :
    x ∈ (get_letter_amounts letters).map Prod.fst ↔ x ∈ letters := by
  simpa [get_letter_amounts] using foldl_addLetter_mem_keys letters [] x

theorem get_letter_amounts_nodup (letters : List Char) :
    ((get_letter_amounts letters).map Prod.fst).Nodup :=
  foldl_addLetter_nodup letters [] (by simp)

theorem get_letter_amounts_sum (letters : List Char) :
    ((get_letter_amounts letters).map Prod.snd).sum = letters.length := by
  simpa [get_letter_amounts] using foldl_addLetter_sum letters [] (by simp)

theorem get_letter_amounts_pos (letters : List Char) :
    ∀ p ∈ get_letter_amounts letters, 1 ≤ p.2 :=
  foldl_addLetter_pos letters [] (by simp)

theorem find_amount_by_letter_eq_zero (c : Char) (l : List (Char × Nat))
    (h : c ∉ l.map Prod.fst) : find_amount_by_letter c l = 0 := by
  induction l with
  | nil => rfl
  | cons p rest ih =>
    have h1 : (p.1 == c) = false := by
      simp only [beq_eq_false_iff_ne]
      intro hc
      exact h (by simp [hc])
    have h2 : c ∉ rest.map Prod.fst := fun hm => h (by simp [hm])
    simp [find_amount_by_letter, h1, ih h2]

theorem valid_in_get_words_iff (w : List Char) (la : List (Char × Nat))
    (m : Char) :
    valid_in_get_words w la m = true ↔
      (4 ≤ w.length ∧ (∀ c ∈ w, c ∈ la.map Prod.fst) ∧
       (∀ c ∈ w, w.count c ≤ find_amount_by_letter c la) ∧ m ∈ w) := by
  simp [valid_in_get_words, List.all_eq_true, List.elem_iff, List.contains,
    and_assoc]

theorem valid_in_get_pure_iff (w : List Char) (la : List (Char × Nat))
    (m : Char) :
    valid_in_get_pure w la m = true ↔
      (4 ≤ w.length ∧ (∀ c ∈ w, c ∈ la.map Prod.fst) ∧
       (∀ c ∈ w, w.count c ≤ find_amount_by_letter c la) ∧ m ∈ w) := by
  simp [valid_in_get_pure, List.all_eq_true, List.elem_iff, List.contains,
    and_assoc]

theorem valid_defs_eq (w : List Char) (la : List (Char × Nat)) (m : Char) :
    valid_in_get_words w la m = valid_in_get_pure w la m := by
  simp [valid_in_get_words, valid_in_get_pure, Bool.and_assoc]

theorem dictionary_filter_eq_filter (ws : List (List Char))
    (la : List (Char × Nat)) (m : Char) :
    dictionary_filter ws la m =
      ws.filter (fun w => valid_in_get_words w la m) := by
  simpa using foldl_if_append (fun w => valid_in_get_words w la m) ws []

theorem get_words_eq_filter_aux (lines : List (List Char))
    (letters : List Char) :
    get_words lines letters =
      (lines.drop 3).filter
        (fun w => valid_in_get_words w (get_letter_amounts letters)
          (middle_letter letters)) := by
  rw [get_words, dictionary_filter_eq_filter]

theorem get_pure_eq_filter_aux (u : List (List Char)) (letters : List Char)
    (d : List (List Char)) :
    get_pure_user_words u letters d =
      u.filter
        (fun w => valid_in_get_pure w (get_letter_amounts letters)
          (middle_letter letters) && !(d.contains w)) := by
  exact foldl_if_append
    (fun w => valid_in_get_pure w (get_letter_amounts letters)
      (middle_letter letters) && !(d.contains w)) u []

/-! ### Claims -/

/-- C1: for every word `w`, letter multiset derived from the 9 grid
letters, and middle letter `m`, the validation rule (the one of
`get_words` and the one of `get_pure_user_words` alike) accepts `w` iff
all four conditions hold: `w` has length at least 4, every character of
`w` is a key of the multiset, every character of `w` occurs in `w` at
most its stored amount of times, and `m` occurs at least once in `w`. -/
theorem validator_accepts_iff (w letters : List Char) (m : Char)
    (h : letters.length = 9) :
    (valid_in_get_words w (get_letter_amounts letters) m = true ↔
      (4 ≤ w.length ∧
       (∀ c ∈ w, c ∈ (get_letter_amounts letters).map Prod.fst) ∧
       (∀ c ∈ w, w.count c ≤
          find_amount_by_letter c (get_letter_amounts letters)) ∧
       m ∈ w)) ∧
    (valid_in_get_pure w (get_letter_amounts letters) m = true ↔
      (4 ≤ w.length ∧
       (∀ c ∈ w, c ∈ (get_letter_amounts letters).map Prod.fst) ∧
       (∀ c ∈ w, w.count c ≤
          find_amount_by_letter c (get_letter_amounts letters)) ∧
       m ∈ w)) :=
  ⟨valid_in_get_words_iff w _ m, valid_in_get_pure_iff w _ m⟩

/-- Witness for `validator_accepts_iff` at the example grid `testmings`
and the word `stem`. -/
theorem validator_accepts_iff_witness :
    valid_in_get_words wstem (get_letter_amounts tgrid) 'm' = true :=
  ((validator_accepts_iff wstem tgrid 'm' (by decide)).1).mpr
    ⟨by decide, by decide, by decide, by decide⟩

/-- C2 counterexample: the dictionary filter does not have set semantics:
a candidate list in which a passing word occurs twice yields a result in
which it still occurs twice, so duplicates are not collapsed. -/
theorem get_words_duplicates_not_collapsed :
    ¬ (get_words [['h'], ['h'], ['h'], wstem, wstem] tgrid).Nodup := by
  decide

/-- C2 amended: the dictionary filter collects the passing words into an
order-preserving list — exactly the subsequence of the candidate words
(after the header) whose members pass the validator — so duplicate
passing entries are retained rather than collapsed, and the order is the
input order, not arbitrary set order. -/
theorem get_words_list_semantics (lines : List (List Char))
    (letters : List Char) :
    get_words lines letters =
      (lines.drop 3).filter
        (fun w => valid_in_get_words w (get_letter_amounts letters)
          (middle_letter letters)) ∧
    (get_words lines letters).Sublist (lines.drop 3) := by
  constructor
  · exact get_words_eq_filter_aux lines letters
  · rw [get_words_eq_filter_aux]
    exact List.filter_sublist _

/-- C3: a word belongs to the result of `get_pure_user_words` iff it is
one of the user guesses, satisfies the four validation conditions
(length, letters among the grid keys, per-letter multiplicity, middle
letter), and is not in the dictionary word list. -/
theorem get_pure_user_words_mem_iff (u : List (List Char))
    (letters : List Char) (d : List (List Char)) (w : List Char) :
    w ∈ get_pure_user_words u letters d ↔
      (w ∈ u ∧ 4 ≤ w.length ∧
       (∀ c ∈ w, c ∈ (get_letter_amounts letters).map Prod.fst) ∧
       (∀ c ∈ w, w.count c ≤
          find_amount_by_letter c (get_letter_amounts letters)) ∧
       middle_letter letters ∈ w ∧ w ∉ d) := by
  rw [get_pure_eq_filter_aux, List.mem_filter, Bool.and_eq_true,
    valid_in_get_pure_iff]
  simp [List.elem_iff, List.contains, and_assoc]

/-- C4: the validation rule applied to dictionary candidates in
`get_words` and the validation rule applied to user guesses in
`get_pure_user_words` (setting aside the not-in-dictionary exclusion)
are the same predicate. -/
theorem validation_rules_agree (w letters : List Char)
    (h : letters.length = 9) :
    valid_in_get_words w (get_letter_amounts letters)
        (middle_letter letters) =
      valid_in_get_pure w (get_letter_amounts letters)
        (middle_letter letters) :=
  valid_defs_eq w _ _

/-- Witness for `validation_rules_agree` at the example grid. -/
theorem validation_rules_agree_witness :
    valid_in_get_words wstem (get_letter_amounts tgrid)
        (middle_letter tgrid) =
      valid_in_get_pure wstem (get_letter_amounts tgrid)
        (middle_letter tgrid) :=
  validation_rules_agree wstem tgrid (by decide)

/-- C5: for a 9-letter input, `_get_letter_amounts` produces a mapping
whose counts sum to 9, whose counts are all at least 1, and whose keys
are exactly the distinct letters of the input, each appearing once. -/
theorem letter_amounts_invariants (letters : List Char)
    (h : letters.length = 9) :
    ((get_letter_amounts letters).map Prod.snd).sum = 9 ∧
    (∀ p ∈ get_letter_amounts letters, 1 ≤ p.2) ∧
    (∀ c : Char,
      c ∈ (get_letter_amounts letters).map Prod.fst ↔ c ∈ letters) ∧
    ((get_letter_amounts letters).map Prod.fst).Nodup :=
  ⟨by rw [get_letter_amounts_sum, h], get_letter_amounts_pos letters,
   fun c => get_letter_amounts_mem_keys letters c,
   get_letter_amounts_nodup letters⟩

/-- Witness for `letter_amounts_invariants` at the example grid. -/
theorem letter_amounts_invariants_witness :
    ((get_letter_amounts tgrid).map Prod.snd).sum = 9 ∧
    (∀ p ∈ get_letter_amounts tgrid, 1 ≤ p.2) ∧
    (∀ c : Char, c ∈ (get_letter_amounts tgrid).map Prod.fst ↔ c ∈ tgrid) ∧
    ((get_letter_amounts tgrid).map Prod.fst).Nodup :=
  letter_amounts_invariants tgrid (by decide)

/-- C6: validation is total and rejects malformed input by ordinary
evaluation: an empty word, or a word with a character outside the grid
letters, makes the validation condition `false` (via condition 1 or 2),
and the letter-count lookup returns 0 for a letter with no entry. -/
theorem validation_total (w letters : List Char) (la : List (Char × Nat))
    (c : Char) :
    ((w = [] ∨ ∃ d ∈ w, d ∉ letters) →
      valid_in_get_pure w (get_letter_amounts letters)
        (middle_letter letters) = false) ∧
    (c ∉ la.map Prod.fst → find_amount_by_letter c la = 0) := by
  constructor
  · intro hbad
    rw [← Bool.not_eq_true]
    intro ht
    obtain ⟨hlen, hsub, -, -⟩ := (valid_in_get_pure_iff w _ _).mp ht
    rcases hbad with rfl | ⟨d, hd, hdn⟩
    · simp at hlen
    · exact hdn ((get_letter_amounts_mem_keys letters d).mp (hsub d hd))
  · intro hc
    exact find_amount_by_letter_eq_zero c la hc

/-- Witness for `validation_total`: the empty word and a word built from
a letter absent from the grid are rejected, and the lookup of an absent
letter yields 0. -/
theorem validation_total_witness :
    valid_in_get_pure [] (get_letter_amounts tgrid)
        (middle_letter tgrid) = false ∧
    valid_in_get_pure ['q', 'q', 'q', 'q'] (get_letter_amounts tgrid)
        (middle_letter tgrid) = false ∧
    find_amount_by_letter 'q' (get_letter_amounts tgrid) = 0 :=
  ⟨(validation_total [] tgrid [] 'a').1 (Or.inl rfl),
   (validation_total ['q', 'q', 'q', 'q'] tgrid [] 'a').1
     (Or.inr ⟨'q', by decide, by decide⟩),
   (validation_total [] tgrid (get_letter_amounts tgrid) 'q').2 (by decide)⟩

/-- C7: the middle letter used by validation is the element at index 4
(the 5th element) of the 9-letter sequence, and every word in the
valid-word result of `get_words` contains it at least once. -/
theorem middle_letter_spec (lines : List (List Char)) (letters : List Char)
    (h : letters.length = 9) :
    middle_letter letters = letters.get ⟨4, by omega⟩ ∧
    ∀ w ∈ get_words lines letters, middle_letter letters ∈ w := by
  constructor
  · rw [middle_letter]
    exact List.getD_eq_get letters ' ' (by omega)
  · intro w hw
    rw [get_words_eq_filter_aux] at hw
    obtain ⟨-, -, -, hm⟩ :=
      (valid_in_get_words_iff w _ _).mp (List.mem_filter.mp hw).2
    exact hm

/-- Witness for `middle_letter_spec` at the example grid (middle letter
`m`). -/
theorem middle_letter_spec_witness :
    middle_letter tgrid = tgrid.get ⟨4, by decide⟩ ∧
    ∀ w ∈ get_words [] tgrid, middle_letter tgrid ∈ w :=
  middle_letter_spec [] tgrid (by decide)

/-- C8: exactly the first three lines of the dictionary resource are a
header and are excluded: the result over `l1 :: l2 :: l3 :: rest` is the
validator filter of `rest` alone (so every line from the fourth onward is
submitted to the validator), and every word of the result comes from
`rest`, never from the three header lines. -/
theorem header_lines_excluded (l1 l2 l3 : List Char)
    (rest : List (List Char)) (letters : List Char) :
    get_words (l1 :: l2 :: l3 :: rest) letters =
      rest.filter
        (fun w => valid_in_get_words w (get_letter_amounts letters)
          (middle_letter letters)) ∧
    ∀ w ∈ get_words (l1 :: l2 :: l3 :: rest) letters, w ∈ rest := by
  constructor
  · rw [get_words_eq_filter_aux]
    rfl
  · intro w hw
    rw [get_words_eq_filter_aux] at hw
    exact (List.mem_filter.mp hw).1

/-- C9: the dictionary filter is deterministic — two runs over the same
word list and grid letters give the same result — and idempotent: running
the filtering loop again over its own output returns that output
unchanged. -/
theorem dictionary_filter_idempotent (ws : List (List Char))
    (letters : List Char) :
    get_words ws letters = get_words ws letters ∧
    dictionary_filter
        (dictionary_filter ws (get_letter_amounts letters)
          (middle_letter letters))
        (get_letter_amounts letters) (middle_letter letters) =
      dictionary_filter ws (get_letter_amounts letters)
        (middle_letter letters) := by
  refine ⟨rfl, ?_⟩
  rw [dictionary_filter_eq_filter, dictionary_filter_eq_filter]
  apply List.filter_eq_self.mpr
  intro w hw
  exact (List.mem_filter.mp hw).2

/-- C10: the result of `get_pure_user_words` is a subsequence of the
input guess list (order preserved), and a rule-valid guess not in the
dictionary keeps its full multiplicity: entered twice, it appears
twice. -/
theorem pure_user_words_subsequence (u : List (List Char))
    (letters : List Char) (d : List (List Char)) :
    (get_pure_user_words u letters d).Sublist u ∧
    ∀ w : List Char,
      valid_in_get_pure w (get_letter_amounts letters)
        (middle_letter letters) = true →
      w ∉ d →
      (get_pure_user_words u letters d).count w = u.count w := by
  constructor
  · rw [get_pure_eq_filter_aux]
    exact List.filter_sublist _
  · intro w hv hnd
    rw [get_pure_eq_filter_aux]
    apply List.count_filter
    simp [hv, List.elem_iff, List.contains, hnd]

/-- Witness for `pure_user_words_subsequence`: the guess `ming`, valid
and unknown to the dictionary, entered twice, appears twice. -/
theorem pure_user_words_subsequence_witness :
    (get_pure_user_words [wming, wming] tgrid [wstem]).Sublist
      [wming, wming] ∧
    (get_pure_user_words [wming, wming] tgrid [wstem]).count wming = 2 := by
  have h := pure_user_words_subsequence [wming, wming] tgrid [wstem]
  refine ⟨h.1, ?_⟩
  rw [h.2 wming (by decide) (by decide)]
  decide

end TargetGame
